import Mathlib

/-!
# Verification of `HashTable.cpp` (chained hash table for bid records)

Shallow embedding of the chained hash table in `src/HashTable.cpp`.

Modelling conventions:
* `Bid` mirrors `struct Bid`; the `double amount` field is only stored and
  copied by the table (never computed with), so it is embedded as `Int`.
* A bucket is a `Node`: the inline head (`bid`, `key`, with `UINT_MAX` as the
  emptiness sentinel) plus the heap-allocated overflow chain, embedded as a
  `List ChainNode` (each overflow node also stores `bid` and `key`, exactly as
  `Node(bid, key)` does).
* `std::vector<Node> nodes` is a `List Node`; `nodes.at(i)` is `l[i]?`,
  where `none` models the thrown `std::out_of_range`.
* `hash` computes `key % tableSize` with `key : int` converted to
  `unsigned int` (wrap modulo 2^32).  Modulo by `tableSize = 0` is undefined
  behaviour in C++, modelled as `none`.  Consequently `Insert`, `Search` and
  `Remove` return `Option` results where `none` marks abnormal termination
  (undefined behaviour or an exception), and `some` a normal return.
* `atoi` is embedded as an unbounded integer parse with C's skip-whitespace /
  optional-sign / leading-digits behaviour (`int` overflow in `atoi` is
  undefined behaviour and outside the model).
* `PrintAll` only reads the table and prints; it is embedded as the list of
  bids it emits, in emission order (bucket index order, head before chain).
-/

namespace HashTableCpp

/-- C `isspace` for the default locale: the six standard whitespace chars. -/
def isSpaceC (c : Char) : Bool :=
  c = ' ' ∨ c = '\t' ∨ c = '\n' ∨ c = '\x0b' ∨ c = '\x0c' ∨ c = '\r'

/-- Skip the leading whitespace, as `atoi` does. -/
def skipSpaces : List Char → List Char
  | [] => []
  | c :: cs => if isSpaceC c then skipSpaces cs else c :: cs

/-- Consume leading decimal digits, accumulating their value. -/
def readDigits : List Char → Nat → Nat
  | [], acc => acc
  | c :: cs, acc => if c.isDigit then readDigits cs (10 * acc + (c.toNat - 48)) else acc

/-- `atoi` after whitespace skipping: optional sign, then leading digits. -/
def atoiCore : List Char → Int
  | [] => 0
  | c :: cs =>
    if c = '-' then -(readDigits cs 0 : Int)
    else if c = '+' then (readDigits cs 0 : Int)
    else (readDigits (c :: cs) 0 : Int)

/-- C `atoi` on the identifier string (parse-or-zero). -/
def atoi (s : String) : Int := atoiCore (skipSpaces s.data)

/-- `const unsigned int DEFAULT_SIZE = 179`. -/
def DEFAULT_SIZE : Nat := 179

/-- `UINT_MAX`, the sentinel key marking an empty bucket head. -/
def UINT_MAX : Nat := 4294967295

/-- `struct Bid`: identifier, title, fund and amount.  The default
constructor zeroes `amount` and leaves the strings empty. -/
structure Bid where
  bidId : String := ""
  title : String := ""
  fund : String := ""
  amount : Int := 0
  deriving Repr, DecidableEq

/-- A heap-allocated overflow node of a bucket chain: `Node(bid, key)`. -/
structure ChainNode where
  bid : Bid
  key : Nat
  deriving Repr, DecidableEq

/-- A bucket: the inline head node together with its overflow chain.
The default constructor sets `key = UINT_MAX` and `next = nullptr`. -/
structure Node where
  bid : Bid := {}
  key : Nat := UINT_MAX
  next : List ChainNode := []
  deriving Repr, DecidableEq

/-- The hash table: the bucket vector `nodes` and `tableSize`. -/
structure HashTable where
  nodes : List Node
  tableSize : Nat
  deriving Repr, DecidableEq

/-- `HashTable::HashTable(unsigned int size)`: `tableSize = size` and
`nodes.resize(tableSize)`, all buckets default-constructed (EMPTY). -/
def HashTable.create (size : Nat) : HashTable :=
  { nodes := List.replicate size {}, tableSize := size }

/-- `HashTable::HashTable()`: the default constructor uses `DEFAULT_SIZE`. -/
def HashTable.createDefault : HashTable := HashTable.create DEFAULT_SIZE

/-- `HashTable::hash(int key)`: `key % tableSize` where `key` is converted to
`unsigned int` (wrap modulo `2^32`).  `tableSize = 0` makes the modulo
undefined behaviour, modelled as `none`. -/
def HashTable.hash (tableSize : Nat) (key : Int) : Option Nat :=
  if tableSize = 0 then none
  else some ((key.emod (2 ^ 32)).toNat % tableSize)

/-- The bucket index all three operations compute for an identifier:
`hash(atoi(bidId.c_str()))`. -/
def bucketOf (tableSize : Nat) (bidId : String) : Option Nat :=
  HashTable.hash tableSize (atoi bidId)

/-- The collision walk of `Insert` over the overflow chain: stop at the first
node whose `bidId` matches (no update), otherwise append `Node(bid, key)` at
the end of the chain. -/
def insertChain (bid : Bid) (key : Nat) : List ChainNode → List ChainNode
  | [] => [⟨bid, key⟩]
  | c :: rest =>
    if c.bid.bidId = bid.bidId then c :: rest else c :: insertChain bid key rest

/-- The walk of `Search` over the overflow chain: first match wins. -/
def searchChain (bidId : String) : List ChainNode → Option Bid
  | [] => none
  | c :: rest => if c.bid.bidId = bidId then some c.bid else searchChain bidId rest

/-- The splice of `Remove` over the overflow chain: drop the first node whose
`bidId` matches (`prev->next = node->next; delete node`), keep the rest. -/
def removeChain (bidId : String) : List ChainNode → List ChainNode
  | [] => []
  | c :: rest => if c.bid.bidId = bidId then rest else c :: removeChain bidId rest

/-- `HashTable::Insert(Bid bid)`.  Bucket index from `hash(atoi(bidId))`;
EMPTY head (`key == UINT_MAX`) is overwritten in place with `next = nullptr`;
otherwise the chain is walked from the head: a `bidId` match anywhere is a
silent no-op, and with no match a new node is appended at the end. -/
def HashTable.Insert (ht : HashTable) (bid : Bid) : Option HashTable := do
  let key ← HashTable.hash ht.tableSize (atoi bid.bidId)
  let node ← ht.nodes[key]?
  if node.key = UINT_MAX then
    some { ht with nodes := ht.nodes.set key ⟨bid, key, []⟩ }
  else if node.bid.bidId = bid.bidId then
    some ht
  else
    some { ht with nodes := ht.nodes.set key { node with next := insertChain bid key node.next } }

/-- `HashTable::Search(string bidId)`.  Walks from the inline head without
consulting the `UINT_MAX` sentinel; returns the first `bidId` match, or the
default-constructed `Bid` when no node matches. -/
def HashTable.Search (ht : HashTable) (bidId : String) : Option Bid := do
  let key ← HashTable.hash ht.tableSize (atoi bidId)
  let node ← ht.nodes[key]?
  if node.bid.bidId = bidId then
    some node.bid
  else
    match searchChain bidId node.next with
    | some b => some b
    | none => some {}

/-- `HashTable::Remove(string bidId)`.  Walks from the head tracking `prev`.
A head match (`prev == nullptr`) sets `key = UINT_MAX` and `next = nullptr`
(the stored `bid` is left in place and the chain is dropped, not promoted);
a chain match is spliced out; no match does nothing. -/
def HashTable.Remove (ht : HashTable) (bidId : String) : Option HashTable := do
  let key ← HashTable.hash ht.tableSize (atoi bidId)
  let node ← ht.nodes[key]?
  if node.bid.bidId = bidId then
    some { ht with nodes := ht.nodes.set key { node with key := UINT_MAX, next := [] } }
  else
    some { ht with nodes := ht.nodes.set key { node with next := removeChain bidId node.next } }

/-- The bids a bucket contributes to `PrintAll`: nothing when the head key is
`UINT_MAX`, otherwise the head bid followed by the chain bids in order. -/
def emitBucket (n : Node) : List Bid :=
  if n.key = UINT_MAX then [] else n.bid :: n.next.map (fun c => c.bid)

/-- The `PrintAll` loop over the bucket vector, in index order. -/
def printAllNodes : List Node → List Bid
  | [] => []
  | n :: rest => emitBucket n ++ printAllNodes rest

/-- `HashTable::PrintAll()`: the sequence of bids emitted (read-only). -/
def HashTable.PrintAll (ht : HashTable) : List Bid := printAllNodes ht.nodes

/-- A sequence of `Insert` calls, left to right. -/
def insertAll (ht : HashTable) (bs : List Bid) : Option HashTable :=
  match bs with
  | [] => some ht
  | b :: rest => do
    let ht' ← ht.Insert b
    insertAll ht' rest

/-- Table states reachable from a constructor call by `Insert`/`Remove`.
The constructor argument is an `unsigned int`, hence `size < 2 ^ 32`. -/
inductive Reachable : HashTable → Prop where
  | create (size : Nat) (hsize : size < 2 ^ 32) : Reachable (HashTable.create size)
  | insert {ht ht' : HashTable} {b : Bid} :
      Reachable ht → ht.Insert b = some ht' → Reachable ht'
  | remove {ht ht' : HashTable} {s : String} :
      Reachable ht → ht.Remove s = some ht' → Reachable ht'

/-- Structural invariant of reachable tables: bucket count matches
`tableSize`; an EMPTY head has no chain; every stored bid sits in the bucket
its identifier hashes to; identifiers are unique within a bucket. -/
def WF (ht : HashTable) : Prop :=
  ht.tableSize < 2 ^ 32 ∧
  ht.nodes.length = ht.tableSize ∧
  (∀ (i : Nat) (n : Node), ht.nodes[i]? = some n → n.key = UINT_MAX → n.next = []) ∧
  (∀ (i : Nat) (n : Node), ht.nodes[i]? = some n →
    ∀ b ∈ emitBucket n, HashTable.hash ht.tableSize (atoi b.bidId) = some i) ∧
  (∀ (i : Nat) (n : Node), ht.nodes[i]? = some n →
    ((emitBucket n).map (fun b => b.bidId)).Nodup)

/-- Spec-side description of `PrintAll` (from the spec: iterate buckets in
index order; for each occupied bucket emit the head record then each chained
record in chain order), to be compared with the embedded loop. -/
def printAllSpec (ht : HashTable) : List Bid :=
  (List.range ht.nodes.length).flatMap
    (fun i =>
      match ht.nodes[i]? with
      | some n => if n.key = UINT_MAX then [] else n.bid :: n.next.map (fun c => c.bid)
      | none => [])

/-- Sample record with identifier "0" (hashes to bucket 0 in a size-5 table). -/
def bid0 : Bid := ⟨"0", "Item zero", "Fund A", 10⟩

/-- Sample record with identifier "5" (hashes to bucket 0 in a size-5 table). -/
def bid5 : Bid := ⟨"5", "Item five", "Fund B", 50⟩

/-- Sample record with identifier "10" (hashes to bucket 0 in a size-5 table). -/
def bid10 : Bid := ⟨"10", "Item ten", "Fund C", 100⟩

/-- Sample record with identifier "1" (hashes to bucket 1 in a size-5 table). -/
def bid1 : Bid := ⟨"1", "Item one", "Fund D", 11⟩

/-- Sample record used for the stale-search evaluation. -/
def bidA : Bid := ⟨"1", "Bronze statue", "General Fund", 7⟩

/-! ## Helper lemmas -/

theorem set_self_of_getElem? {α : Type} (l : List α) (i : Nat) (a : α)
    (h : l[i]? = some a) : l.set i a = l := by
  induction l generalizing i with
  | nil => simp at h
  | cons x xs ih =>
    cases i with
    | zero => simp at h; simp [h]
    | succ j => simp at h; simp [ih j h]

theorem hash_isSome {tableSize : Nat} (key : Int) (h : tableSize ≠ 0) :
    HashTable.hash tableSize key = some ((key.emod (2 ^ 32)).toNat % tableSize) := by
  unfold HashTable.hash
  simp [h]

theorem hash_lt {tableSize : Nat} {key : Int} {k : Nat}
    (h : HashTable.hash tableSize key = some k) : k < tableSize := by
  by_cases hts : tableSize = 0
  · rw [hts] at h
    simp [HashTable.hash] at h
  · rw [hash_isSome key hts] at h
    have hk := Option.some.inj h
    rw [← hk]
    exact Nat.mod_lt _ (Nat.pos_of_ne_zero hts)

theorem insertChain_of_not_mem {b : Bid} {k : Nat} {l : List ChainNode}
    (h : ∀ c ∈ l, c.bid.bidId ≠ b.bidId) :
    insertChain b k l = l ++ [⟨b, k⟩] := by
  induction l with
  | nil => rfl
  | cons c rest ih =>
    have hc : c.bid.bidId ≠ b.bidId := h c (by simp)
    simp [insertChain, hc]
    exact ih (fun c' hc' => h c' (by simp [hc']))

theorem insertChain_of_mem {b : Bid} {k : Nat} {l : List ChainNode}
    (h : ∃ c ∈ l, c.bid.bidId = b.bidId) :
    insertChain b k l = l := by
  induction l with
  | nil => simp at h
  | cons c rest ih =>
    by_cases hc : c.bid.bidId = b.bidId
    · simp [insertChain, hc]
    · simp [insertChain, hc]
      apply ih
      rcases h with ⟨c', hc', he⟩
      rcases List.mem_cons.mp hc' with h1 | h2
      · exact absurd (h1 ▸ he) hc
      · exact ⟨c', h2, he⟩

theorem removeChain_of_not_mem {s : String} {l : List ChainNode}
    (h : ∀ c ∈ l, c.bid.bidId ≠ s) :
    removeChain s l = l := by
  induction l with
  | nil => rfl
  | cons c rest ih =>
    have hc : c.bid.bidId ≠ s := h c (by simp)
    simp [removeChain, hc]
    exact ih (fun c' hc' => h c' (by simp [hc']))

theorem removeChain_append {s : String} {l1 l2 : List ChainNode} {m : ChainNode}
    (h1 : ∀ c ∈ l1, c.bid.bidId ≠ s) (hm : m.bid.bidId = s) :
    removeChain s (l1 ++ m :: l2) = l1 ++ l2 := by
  induction l1 with
  | nil => simp [removeChain, hm]
  | cons c rest ih =>
    have hc : c.bid.bidId ≠ s := h1 c (by simp)
    simp [removeChain, hc]
    exact ih (fun c' hc' => h1 c' (by simp [hc']))

theorem searchChain_of_not_mem {s : String} {l : List ChainNode}
    (h : ∀ c ∈ l, c.bid.bidId ≠ s) :
    searchChain s l = none := by
  induction l with
  | nil => rfl
  | cons c rest ih =>
    have hc : c.bid.bidId ≠ s := h c (by simp)
    simp [searchChain, hc]
    exact ih (fun c' hc' => h c' (by simp [hc']))

theorem searchChain_unique {s : String} {l : List ChainNode} {c : ChainNode}
    (hmem : c ∈ l) (hid : c.bid.bidId = s)
    (hnd : (l.map (fun x => x.bid.bidId)).Nodup) :
    searchChain s l = some c.bid := by
  induction l with
  | nil => simp at hmem
  | cons x rest ih =>
    simp only [List.map_cons, List.nodup_cons] at hnd
    rcases List.mem_cons.mp hmem with h1 | h2
    · subst h1
      simp [searchChain, hid]
    · by_cases hx : x.bid.bidId = s
      · exfalso
        apply hnd.1
        rw [hx, ← hid]
        exact List.mem_map.mpr ⟨c, h2, rfl⟩
      · simp [searchChain, hx]
        exact ih h2 hnd.2

theorem printAllNodes_set {l : List Node} {i : Nat} {n : Node} (n' : Node)
    (h : l[i]? = some n) :
    ∃ pre post, printAllNodes l = pre ++ (emitBucket n ++ post) ∧
      printAllNodes (l.set i n') = pre ++ (emitBucket n' ++ post) := by
  induction l generalizing i with
  | nil => simp at h
  | cons x xs ih =>
    cases i with
    | zero =>
      simp only [List.getElem?_cons_zero, Option.some.injEq] at h
      subst h
      exact ⟨[], printAllNodes xs, by simp [printAllNodes], by simp [printAllNodes]⟩
    | succ j =>
      simp only [List.getElem?_cons_succ] at h
      obtain ⟨pre, post, h1, h2⟩ := ih h
      refine ⟨emitBucket x ++ pre, post, ?_, ?_⟩
      · simp [printAllNodes, h1]
      · simp [printAllNodes, h2]

theorem mem_printAllNodes {x : Bid} {l : List Node} :
    x ∈ printAllNodes l ↔ ∃ (i : Nat) (n : Node), l[i]? = some n ∧ x ∈ emitBucket n := by
  induction l with
  | nil => simp [printAllNodes]
  | cons y ys ih =>
    simp only [printAllNodes, List.mem_append, ih]
    constructor
    · rintro (hx | ⟨i, n, hi, hn⟩)
      · exact ⟨0, y, by simp, hx⟩
      · exact ⟨i + 1, n, by simpa using hi, hn⟩
    · rintro ⟨i, n, hi, hn⟩
      cases i with
      | zero =>
        simp only [List.getElem?_cons_zero, Option.some.injEq] at hi
        subst hi
        exact Or.inl hn
      | succ j =>
        right
        exact ⟨j, n, by simpa using hi, hn⟩

theorem Insert_eq {ht : HashTable} {b : Bid} {k : Nat} {node : Node}
    (hk : HashTable.hash ht.tableSize (atoi b.bidId) = some k)
    (hn : ht.nodes[k]? = some node) :
    ht.Insert b =
      (if node.key = UINT_MAX then
        some { ht with nodes := ht.nodes.set k ⟨b, k, []⟩ }
      else if node.bid.bidId = b.bidId then some ht
      else some { ht with
        nodes := ht.nodes.set k { node with next := insertChain b k node.next } }) := by
  unfold HashTable.Insert
  rw [hk]
  simp only [Option.bind_eq_bind, Option.some_bind, hn]

theorem Search_eq {ht : HashTable} {s : String} {k : Nat} {node : Node}
    (hk : HashTable.hash ht.tableSize (atoi s) = some k)
    (hn : ht.nodes[k]? = some node) :
    ht.Search s =
      (if node.bid.bidId = s then some node.bid
      else
        match searchChain s node.next with
        | some b => some b
        | none => some {}) := by
  unfold HashTable.Search
  rw [hk]
  simp only [Option.bind_eq_bind, Option.some_bind, hn]

theorem Remove_eq {ht : HashTable} {s : String} {k : Nat} {node : Node}
    (hk : HashTable.hash ht.tableSize (atoi s) = some k)
    (hn : ht.nodes[k]? = some node) :
    ht.Remove s =
      (if node.bid.bidId = s then
        some { ht with nodes := ht.nodes.set k { node with key := UINT_MAX, next := [] } }
      else
        some { ht with nodes := ht.nodes.set k { node with next := removeChain s node.next } }) := by
  unfold HashTable.Remove
  rw [hk]
  simp only [Option.bind_eq_bind, Option.some_bind, hn]

theorem emitBucket_of_empty {n : Node} (h : n.key = UINT_MAX) : emitBucket n = [] := by
  simp [emitBucket, h]

theorem emitBucket_of_occupied {n : Node} (h : n.key ≠ UINT_MAX) :
    emitBucket n = n.bid :: n.next.map (fun c => c.bid) := by
  simp [emitBucket, h]

theorem create_getElem {size i : Nat} {n : Node}
    (h : (HashTable.create size).nodes[i]? = some n) : n = {} := by
  unfold HashTable.create at h
  simp only [List.getElem?_replicate] at h
  by_cases hi : i < size
  · rw [if_pos hi] at h
    exact (Option.some.inj h).symm
  · rw [if_neg hi] at h
    cases h

theorem WF_create (size : Nat) (hsize : size < 2 ^ 32) : WF (HashTable.create size) := by
  refine ⟨hsize, by simp [HashTable.create], ?_, ?_, ?_⟩
  · intro i n h _
    rw [create_getElem h]
  · intro i n h b hb
    rw [create_getElem h, emitBucket_of_empty rfl] at hb
    cases hb
  · intro i n h
    rw [create_getElem h, emitBucket_of_empty rfl]
    exact List.nodup_nil

theorem Insert_inv {ht ht' : HashTable} {b : Bid} (h : ht.Insert b = some ht') :
    ∃ k node, HashTable.hash ht.tableSize (atoi b.bidId) = some k ∧
      ht.nodes[k]? = some node := by
  unfold HashTable.Insert at h
  cases hh : HashTable.hash ht.tableSize (atoi b.bidId) with
  | none => rw [hh] at h; simp at h
  | some k =>
    rw [hh] at h
    simp only [Option.bind_eq_bind, Option.some_bind] at h
    cases hn : ht.nodes[k]? with
    | none => rw [hn] at h; simp at h
    | some node => exact ⟨k, node, rfl, hn⟩

theorem Remove_inv {ht ht' : HashTable} {s : String} (h : ht.Remove s = some ht') :
    ∃ k node, HashTable.hash ht.tableSize (atoi s) = some k ∧
      ht.nodes[k]? = some node := by
  unfold HashTable.Remove at h
  cases hh : HashTable.hash ht.tableSize (atoi s) with
  | none => rw [hh] at h; simp at h
  | some k =>
    rw [hh] at h
    simp only [Option.bind_eq_bind, Option.some_bind] at h
    cases hn : ht.nodes[k]? with
    | none => rw [hn] at h; simp at h
    | some node => exact ⟨k, node, rfl, hn⟩

theorem Insert_tableSize {ht ht' : HashTable} {b : Bid} (h : ht.Insert b = some ht') :
    ht'.tableSize = ht.tableSize := by
  obtain ⟨k, node, hk, hn⟩ := Insert_inv h
  rw [Insert_eq hk hn] at h
  split at h
  · injection h with h2
    rw [← h2]
  · split at h
    · injection h with h2
      rw [← h2]
    · injection h with h2
      rw [← h2]

theorem Remove_tableSize {ht ht' : HashTable} {s : String} (h : ht.Remove s = some ht') :
    ht'.tableSize = ht.tableSize := by
  obtain ⟨k, node, hk, hn⟩ := Remove_inv h
  rw [Remove_eq hk hn] at h
  split at h
  · injection h with h2
    rw [← h2]
  · injection h with h2
    rw [← h2]

theorem WF_set {ht : HashTable} {k : Nat} {node : Node} (newnode : Node)
    (hwf : WF ht) (hn : ht.nodes[k]? = some node)
    (hemp : newnode.key = UINT_MAX → newnode.next = [])
    (hhashnew : ∀ b ∈ emitBucket newnode, HashTable.hash ht.tableSize (atoi b.bidId) = some k)
    (hndnew : ((emitBucket newnode).map (fun b => b.bidId)).Nodup) :
    WF { ht with nodes := ht.nodes.set k newnode } := by
  obtain ⟨hbound, hlen, hempt, hhash, hnd⟩ := hwf
  refine ⟨hbound, by simpa using hlen, ?_, ?_, ?_⟩
  · intro i n h
    by_cases hik : k = i
    · subst hik
      have hlt : k < ht.nodes.length := (List.getElem?_eq_some_iff.mp hn).1
      rw [show ({ ht with nodes := ht.nodes.set k newnode } : HashTable).nodes
            = ht.nodes.set k newnode from rfl, List.getElem?_set_self hlt] at h
      rw [← Option.some.inj h]
      exact hemp
    · rw [show ({ ht with nodes := ht.nodes.set k newnode } : HashTable).nodes
            = ht.nodes.set k newnode from rfl, List.getElem?_set_ne hik] at h
      exact hempt i n h
  · intro i n h b hb
    by_cases hik : k = i
    · subst hik
      have hlt : k < ht.nodes.length := (List.getElem?_eq_some_iff.mp hn).1
      rw [show ({ ht with nodes := ht.nodes.set k newnode } : HashTable).nodes
            = ht.nodes.set k newnode from rfl, List.getElem?_set_self hlt] at h
      rw [← Option.some.inj h] at hb
      exact hhashnew b hb
    · rw [show ({ ht with nodes := ht.nodes.set k newnode } : HashTable).nodes
            = ht.nodes.set k newnode from rfl, List.getElem?_set_ne hik] at h
      exact hhash i n h b hb
  · intro i n h
    by_cases hik : k = i
    · subst hik
      have hlt : k < ht.nodes.length := (List.getElem?_eq_some_iff.mp hn).1
      rw [show ({ ht with nodes := ht.nodes.set k newnode } : HashTable).nodes
            = ht.nodes.set k newnode from rfl, List.getElem?_set_self hlt] at h
      rw [← Option.some.inj h]
      exact hndnew
    · rw [show ({ ht with nodes := ht.nodes.set k newnode } : HashTable).nodes
            = ht.nodes.set k newnode from rfl, List.getElem?_set_ne hik] at h
      exact hnd i n h

theorem emitBucket_append {node : Node} {c : ChainNode} (h : node.key ≠ UINT_MAX) :
    emitBucket { node with next := node.next ++ [c] } = emitBucket node ++ [c.bid] := by
  simp [emitBucket, h]

theorem emitBucket_withNext (node : Node) (l : List ChainNode) :
    emitBucket { node with next := l } =
      if node.key = UINT_MAX then [] else node.bid :: l.map (fun c => c.bid) := by
  simp [emitBucket]

theorem removeChain_sublist (s : String) (l : List ChainNode) :
    (removeChain s l).Sublist l := by
  induction l with
  | nil => simp [removeChain]
  | cons c rest ih =>
    by_cases hc : c.bid.bidId = s
    · simp only [removeChain, hc, if_pos]
      exact List.sublist_cons_self c rest
    · simp only [removeChain, hc, if_neg, not_false_iff]
      exact List.Sublist.cons₂ c ih

theorem WF_Insert {ht ht' : HashTable} {b : Bid}
    (hwf : WF ht) (h : ht.Insert b = some ht') : WF ht' := by
  obtain ⟨k, node, hk, hn⟩ := Insert_inv h
  have hndk := hwf.2.2.2.2 k node hn
  have hhashk := hwf.2.2.2.1 k node hn
  rw [Insert_eq hk hn] at h
  by_cases hkey : node.key = UINT_MAX
  · rw [if_pos hkey] at h
    rw [← Option.some.inj h]
    refine WF_set ⟨b, k, []⟩ hwf hn (fun _ => rfl) ?_ ?_
    · intro b' hb'
      by_cases hku : (⟨b, k, []⟩ : Node).key = UINT_MAX
      · rw [emitBucket_of_empty hku] at hb'
        cases hb'
      · rw [emitBucket_of_occupied hku] at hb'
        simp only [List.map_nil, List.mem_singleton] at hb'
        rw [hb']
        exact hk
    · by_cases hku : (⟨b, k, []⟩ : Node).key = UINT_MAX
      · rw [emitBucket_of_empty hku]
        exact List.nodup_nil
      · rw [emitBucket_of_occupied hku]
        simp
  · rw [if_neg hkey] at h
    by_cases hdup : node.bid.bidId = b.bidId
    · rw [if_pos hdup] at h
      rw [← Option.some.inj h]
      exact hwf
    · rw [if_neg hdup] at h
      by_cases hex : ∃ c ∈ node.next, c.bid.bidId = b.bidId
      · rw [insertChain_of_mem hex] at h
        have hset : ht.nodes.set k { node with next := node.next } = ht.nodes :=
          set_self_of_getElem? ht.nodes k node hn
        rw [hset] at h
        rw [← Option.some.inj h]
        exact hwf
      · push_neg at hex
        rw [insertChain_of_not_mem hex] at h
        rw [← Option.some.inj h]
        refine WF_set _ hwf hn ?_ ?_ ?_
        · intro hc
          exact absurd hc hkey
        · intro b' hb'
          rw [emitBucket_append hkey] at hb'
          rcases List.mem_append.mp hb' with h1 | h2
          · exact hhashk b' h1
          · rw [List.mem_singleton.mp h2]
            exact hk
        · rw [emitBucket_append hkey, List.map_append]
          refine List.Nodup.append hndk (by simp) ?_
          intro x hx hx2
          simp only [List.map_cons, List.map_nil, List.mem_singleton] at hx2
          rw [hx2] at hx
          rcases List.mem_map.mp hx with ⟨b', hb', hbid⟩
          rw [emitBucket_of_occupied hkey] at hb'
          rcases List.mem_cons.mp hb' with h1 | h2
          · exact hdup (by rw [h1] at hbid; exact hbid)
          · rcases List.mem_map.mp h2 with ⟨c, hc, hcb⟩
            exact hex c hc (by rw [hcb]; exact hbid)

theorem WF_Remove {ht ht' : HashTable} {s : String}
    (hwf : WF ht) (h : ht.Remove s = some ht') : WF ht' := by
  obtain ⟨k, node, hk, hn⟩ := Remove_inv h
  have hndk := hwf.2.2.2.2 k node hn
  have hhashk := hwf.2.2.2.1 k node hn
  rw [Remove_eq hk hn] at h
  by_cases hmatch : node.bid.bidId = s
  · rw [if_pos hmatch] at h
    rw [← Option.some.inj h]
    refine WF_set _ hwf hn (fun _ => rfl) ?_ ?_
    · intro b hb
      rw [emitBucket_of_empty rfl] at hb
      cases hb
    · rw [emitBucket_of_empty rfl]
      exact List.nodup_nil
  · rw [if_neg hmatch] at h
    rw [← Option.some.inj h]
    refine WF_set _ hwf hn ?_ ?_ ?_
    · intro hc
      have hnext := hwf.2.2.1 k node hn hc
      show removeChain s node.next = []
      rw [hnext]
      rfl
    · intro b hb
      rw [emitBucket_withNext] at hb
      by_cases hkey : node.key = UINT_MAX
      · rw [if_pos hkey] at hb
        cases hb
      · rw [if_neg hkey] at hb
        rcases List.mem_cons.mp hb with h1 | h2
        · refine hhashk b ?_
          rw [emitBucket_of_occupied hkey]
          exact h1 ▸ List.mem_cons_self _ _
        · rcases List.mem_map.mp h2 with ⟨c, hc, hcb⟩
          refine hhashk b ?_
          rw [emitBucket_of_occupied hkey]
          exact List.mem_cons_of_mem _
            (List.mem_map.mpr ⟨c, (removeChain_sublist s node.next).subset hc, hcb⟩)
    · rw [emitBucket_withNext]
      by_cases hkey : node.key = UINT_MAX
      · rw [if_pos hkey]
        exact List.nodup_nil
      · rw [if_neg hkey]
        rw [emitBucket_of_occupied hkey] at hndk
        simp only [List.map_cons, List.nodup_cons] at hndk ⊢
        refine ⟨?_, ?_⟩
        · intro hmem
          apply hndk.1
          rcases List.mem_map.mp hmem with ⟨x, hx, hxe⟩
          rcases List.mem_map.mp hx with ⟨c, hc, hce⟩
          exact List.mem_map.mpr
            ⟨x, List.mem_map.mpr ⟨c, (removeChain_sublist s node.next).subset hc, hce⟩, hxe⟩
        · exact List.Nodup.sublist
            (((removeChain_sublist s node.next).map _).map _) hndk.2

theorem WF_reachable {ht : HashTable} (h : Reachable ht) : WF ht := by
  induction h with
  | create size hsize => exact WF_create size hsize
  | insert _ hins ih => exact WF_Insert ih hins
  | remove _ hrem ih => exact WF_Remove ih hrem

theorem Search_of_mem {ht : HashTable} {b : Bid}
    (hwf : WF ht) (hmem : b ∈ ht.PrintAll) : ht.Search b.bidId = some b := by
  obtain ⟨k, node, hn, hb⟩ := mem_printAllNodes.mp hmem
  have hk := hwf.2.2.2.1 k node hn b hb
  have hnd := hwf.2.2.2.2 k node hn
  by_cases hkey : node.key = UINT_MAX
  · rw [emitBucket_of_empty hkey] at hb
    cases hb
  · rw [Search_eq hk hn]
    rw [emitBucket_of_occupied hkey] at hb hnd
    simp only [List.map_cons, List.nodup_cons] at hnd
    by_cases hhead : node.bid.bidId = b.bidId
    · rw [if_pos hhead]
      rcases List.mem_cons.mp hb with h1 | h2
      · rw [h1]
      · exfalso
        apply hnd.1
        rcases List.mem_map.mp h2 with ⟨c, hc, hcb⟩
        refine List.mem_map.mpr ⟨c.bid, List.mem_map.mpr ⟨c, hc, rfl⟩, ?_⟩
        rw [hcb, ← hhead]
    · rw [if_neg hhead]
      rcases List.mem_cons.mp hb with h1 | h2
      · exact absurd (by rw [h1]) hhead
      · rcases List.mem_map.mp h2 with ⟨c, hc, hcb⟩
        have hnd2 : (node.next.map (fun x => x.bid.bidId)).Nodup := by
          simpa [List.map_map, Function.comp] using hnd.2
        have hsc : searchChain b.bidId node.next = some c.bid :=
          searchChain_unique hc (by rw [hcb]) hnd2
        rw [hsc]
        show some c.bid = some b
        rw [hcb]

theorem Insert_fresh {ht : HashTable} {b : Bid}
    (hwf : WF ht) (hts : ht.tableSize ≠ 0)
    (hfresh : ∀ b' ∈ ht.PrintAll, b'.bidId ≠ b.bidId) :
    ∃ ht', ht.Insert b = some ht' ∧ WF ht' ∧ ht'.tableSize = ht.tableSize ∧
      ∃ pre post, ht.PrintAll = pre ++ post ∧ ht'.PrintAll = pre ++ (b :: post) := by
  have hk := @hash_isSome ht.tableSize (atoi b.bidId) hts
  set k := ((atoi b.bidId).emod (2 ^ 32)).toNat % ht.tableSize with hkdef
  have hklt : k < ht.nodes.length := by
    rw [hwf.2.1]
    exact Nat.mod_lt _ (Nat.pos_of_ne_zero hts)
  have hkne : k ≠ UINT_MAX := by
    have h1 : k < ht.tableSize := by
      rw [hkdef]
      exact Nat.mod_lt _ (Nat.pos_of_ne_zero hts)
    have h2 : ht.tableSize < 2 ^ 32 := hwf.1
    unfold UINT_MAX
    omega
  have hn : ht.nodes[k]? = some (ht.nodes.get ⟨k, hklt⟩) :=
    List.getElem?_eq_some_iff.mpr ⟨hklt, rfl⟩
  set node := ht.nodes.get ⟨k, hklt⟩ with hnodedef
  have hfreshk : ∀ b' ∈ emitBucket node, b'.bidId ≠ b.bidId := by
    intro b' hb'
    exact hfresh b' (mem_printAllNodes.mpr ⟨k, node, hn, hb'⟩)
  by_cases hkey : node.key = UINT_MAX
  · refine ⟨{ ht with nodes := ht.nodes.set k ⟨b, k, []⟩ }, ?_, ?_, rfl, ?_⟩
    · rw [Insert_eq hk hn, if_pos hkey]
    · refine WF_set ⟨b, k, []⟩ hwf hn (fun hc => rfl) ?_ ?_
      · intro b' hb'
        rw [emitBucket_of_occupied (show (⟨b, k, []⟩ : Node).key ≠ UINT_MAX from hkne)] at hb'
        simp only [List.map_nil, List.mem_singleton] at hb'
        rw [hb']
        exact hk
      · rw [emitBucket_of_occupied (show (⟨b, k, []⟩ : Node).key ≠ UINT_MAX from hkne)]
        simp
    · obtain ⟨pre, post, h1, h2⟩ := printAllNodes_set (⟨b, k, []⟩ : Node) hn
      rw [emitBucket_of_empty hkey] at h1
      rw [emitBucket_of_occupied (show (⟨b, k, []⟩ : Node).key ≠ UINT_MAX from hkne)] at h2
      refine ⟨pre, post, ?_, ?_⟩
      · show printAllNodes ht.nodes = pre ++ post
        simpa using h1
      · show printAllNodes (ht.nodes.set k ⟨b, k, []⟩) = pre ++ (b :: post)
        simpa using h2
  · have hhead : node.bid.bidId ≠ b.bidId := by
      refine hfreshk node.bid ?_
      rw [emitBucket_of_occupied hkey]
      exact List.mem_cons_self _ _
    have hchain : ∀ c ∈ node.next, c.bid.bidId ≠ b.bidId := by
      intro c hc
      refine hfreshk c.bid ?_
      rw [emitBucket_of_occupied hkey]
      exact List.mem_cons_of_mem _ (List.mem_map.mpr ⟨c, hc, rfl⟩)
    refine ⟨{ ht with
        nodes := ht.nodes.set k { node with next := node.next ++ [⟨b, k⟩] } }, ?_, ?_, rfl, ?_⟩
    · rw [Insert_eq hk hn, if_neg hkey, if_neg hhead, insertChain_of_not_mem hchain]
    · refine WF_set _ hwf hn (fun hc => absurd hc hkey) ?_ ?_
      · intro b' hb'
        rw [emitBucket_append hkey] at hb'
        rcases List.mem_append.mp hb' with h1 | h2
        · exact hwf.2.2.2.1 k node hn b' h1
        · rw [List.mem_singleton.mp h2]
          exact hk
      · rw [emitBucket_append hkey, List.map_append]
        refine List.Nodup.append (hwf.2.2.2.2 k node hn) (by simp) ?_
        intro x hx hx2
        simp only [List.map_cons, List.map_nil, List.mem_singleton] at hx2
        rw [hx2] at hx
        rcases List.mem_map.mp hx with ⟨b', hb', hbid⟩
        exact hfreshk b' hb' hbid
    · obtain ⟨pre, post, h1, h2⟩ :=
        printAllNodes_set { node with next := node.next ++ [⟨b, k⟩] } hn
      rw [emitBucket_append hkey] at h2
      refine ⟨pre ++ emitBucket node, post, ?_, ?_⟩
      · show printAllNodes ht.nodes = (pre ++ emitBucket node) ++ post
        rw [h1]
        simp
      · show printAllNodes (ht.nodes.set k { node with next := node.next ++ [⟨b, k⟩] })
          = (pre ++ emitBucket node) ++ (b :: post)
        rw [h2]
        simp

theorem insertAll_fresh {bs : List Bid} {ht : HashTable}
    (hwf : WF ht) (hts : ht.tableSize ≠ 0)
    (hnd : (bs.map (fun b => b.bidId)).Nodup)
    (hfresh : ∀ b ∈ bs, ∀ b' ∈ ht.PrintAll, b'.bidId ≠ b.bidId) :
    ∃ ht', insertAll ht bs = some ht' ∧ WF ht' ∧ ht'.tableSize = ht.tableSize ∧
      ∀ x, x ∈ ht'.PrintAll ↔ (x ∈ ht.PrintAll ∨ x ∈ bs) := by
  induction bs generalizing ht with
  | nil => exact ⟨ht, rfl, hwf, rfl, by simp⟩
  | cons b rest ih =>
    obtain ⟨ht1, hins, hwf1, hts1, pre, post, hp1, hp2⟩ :=
      Insert_fresh hwf hts (fun b' hb' => hfresh b (by simp) b' hb')
    simp only [List.map_cons, List.nodup_cons] at hnd
    have hmem1 : ∀ x, x ∈ ht1.PrintAll ↔ (x ∈ ht.PrintAll ∨ x = b) := by
      intro x
      rw [hp2, hp1]
      simp only [List.mem_append, List.mem_cons]
      tauto
    have hfresh1 : ∀ b'' ∈ rest, ∀ b' ∈ ht1.PrintAll, b'.bidId ≠ b''.bidId := by
      intro b'' hb'' b' hb'
      rcases (hmem1 b').mp hb' with h1 | h2
      · exact hfresh b'' (by simp [hb'']) b' h1
      · rw [h2]
        intro he
        exact hnd.1 (he ▸ List.mem_map.mpr ⟨b'', hb'', rfl⟩)
    obtain ⟨ht', hall, hwf', hts', hiff⟩ :=
      ih hwf1 (by rw [hts1]; exact hts) hnd.2 hfresh1
    refine ⟨ht', ?_, hwf', by rw [hts', hts1], ?_⟩
    · simp only [insertAll, Option.bind_eq_bind, hins, Option.some_bind]
      exact hall
    · intro x
      rw [hiff x, hmem1 x]
      simp only [List.mem_cons]
      tauto

theorem ops_total {ht : HashTable} (hwf : WF ht) (hts : ht.tableSize ≠ 0) :
    (∀ b, ∃ ht', ht.Insert b = some ht') ∧
    (∀ s, ∃ r, ht.Search s = some r) ∧
    (∀ s, ∃ ht', ht.Remove s = some ht') := by
  have key : ∀ s : String, ∃ k node,
      HashTable.hash ht.tableSize (atoi s) = some k ∧ ht.nodes[k]? = some node := by
    intro s
    have hk := @hash_isSome ht.tableSize (atoi s) hts
    have hklt : (((atoi s).emod (2 ^ 32)).toNat % ht.tableSize) < ht.nodes.length := by
      rw [hwf.2.1]
      exact Nat.mod_lt _ (Nat.pos_of_ne_zero hts)
    exact ⟨_, _, hk, List.getElem?_eq_some_iff.mpr ⟨hklt, rfl⟩⟩
  refine ⟨?_, ?_, ?_⟩
  · intro b
    obtain ⟨k, node, hk, hn⟩ := key b.bidId
    rw [Insert_eq hk hn]
    by_cases h1 : node.key = UINT_MAX
    · rw [if_pos h1]
      exact ⟨_, rfl⟩
    · rw [if_neg h1]
      by_cases h2 : node.bid.bidId = b.bidId
      · rw [if_pos h2]
        exact ⟨_, rfl⟩
      · rw [if_neg h2]
        exact ⟨_, rfl⟩
  · intro s
    obtain ⟨k, node, hk, hn⟩ := key s
    rw [Search_eq hk hn]
    by_cases h1 : node.bid.bidId = s
    · rw [if_pos h1]
      exact ⟨_, rfl⟩
    · rw [if_neg h1]
      cases hsc : searchChain s node.next with
      | none => exact ⟨_, rfl⟩
      | some bb => exact ⟨_, rfl⟩
  · intro s
    obtain ⟨k, node, hk, hn⟩ := key s
    rw [Remove_eq hk hn]
    by_cases h1 : node.bid.bidId = s
    · rw [if_pos h1]
      exact ⟨_, rfl⟩
    · rw [if_neg h1]
      exact ⟨_, rfl⟩

theorem Insert_frame {ht ht' : HashTable} {b : Bid} {k : Nat}
    (hk : HashTable.hash ht.tableSize (atoi b.bidId) = some k)
    (h : ht.Insert b = some ht') :
    ∀ j, j ≠ k → ht'.nodes[j]? = ht.nodes[j]? := by
  intro j hj
  obtain ⟨k0, node, hk0, hn⟩ := Insert_inv h
  have hkk : k0 = k := by
    rw [hk] at hk0
    exact (Option.some.inj hk0).symm
  subst hkk
  rw [Insert_eq hk0 hn] at h
  split at h
  · rw [← Option.some.inj h]
    exact List.getElem?_set_ne (Ne.symm hj)
  · split at h
    · rw [← Option.some.inj h]
    · rw [← Option.some.inj h]
      exact List.getElem?_set_ne (Ne.symm hj)

theorem Remove_frame {ht ht' : HashTable} {s : String} {k : Nat}
    (hk : HashTable.hash ht.tableSize (atoi s) = some k)
    (h : ht.Remove s = some ht') :
    ∀ j, j ≠ k → ht'.nodes[j]? = ht.nodes[j]? := by
  intro j hj
  obtain ⟨k0, node, hk0, hn⟩ := Remove_inv h
  have hkk : k0 = k := by
    rw [hk] at hk0
    exact (Option.some.inj hk0).symm
  subst hkk
  rw [Remove_eq hk0 hn] at h
  split at h
  · rw [← Option.some.inj h]
    exact List.getElem?_set_ne (Ne.symm hj)
  · rw [← Option.some.inj h]
    exact List.getElem?_set_ne (Ne.symm hj)

theorem Search_depends {ht ht2 : HashTable} {s : String} {k : Nat}
    (hk : HashTable.hash ht.tableSize (atoi s) = some k)
    (hts : ht2.tableSize = ht.tableSize)
    (hnodes : ht2.nodes[k]? = ht.nodes[k]?) :
    ht2.Search s = ht.Search s := by
  unfold HashTable.Search
  rw [hts, hk]
  simp only [Option.bind_eq_bind, Option.some_bind]
  rw [hnodes]

theorem readDigits_no_digit {l : List Char} (h : ∀ c ∈ l, ¬ c.isDigit) (acc : Nat) :
    readDigits l acc = acc := by
  cases l with
  | nil => rfl
  | cons c cs => simp [readDigits, h c (by simp)]

theorem skipSpaces_subset {l : List Char} {c : Char} (h : c ∈ skipSpaces l) : c ∈ l := by
  induction l with
  | nil => simp [skipSpaces] at h
  | cons x xs ih =>
    by_cases hx : isSpaceC x
    · simp only [skipSpaces, hx, if_pos] at h
      exact List.mem_cons_of_mem _ (ih h)
    · simp only [skipSpaces, hx, if_neg, Bool.false_eq_true, not_false_iff] at h
      exact h

theorem atoi_no_digit {s : String} (h : ∀ c ∈ s.data, ¬ c.isDigit) : atoi s = 0 := by
  unfold atoi
  have h2 : ∀ c ∈ skipSpaces s.data, ¬ c.isDigit := fun c hc => h c (skipSpaces_subset hc)
  cases hss : skipSpaces s.data with
  | nil => rfl
  | cons c cs =>
    rw [hss] at h2
    have hc : ¬ c.isDigit = true := h2 c (by simp)
    have hcs : ∀ x ∈ cs, ¬ x.isDigit := fun x hx => h2 x (by simp [hx])
    by_cases hm : c = '-'
    · simp [atoiCore, hm, readDigits_no_digit hcs]
    · by_cases hp : c = '+'
      · simp [atoiCore, hm, hp, readDigits_no_digit hcs]
      · simp [atoiCore, hm, hp, readDigits, hc]

theorem printAllNodes_eq_range (l : List Node) :
    printAllNodes l = (List.range l.length).flatMap
      (fun i =>
        match l[i]? with
        | some n => if n.key = UINT_MAX then [] else n.bid :: n.next.map (fun c => c.bid)
        | none => []) := by
  induction l with
  | nil => simp [printAllNodes]
  | cons x xs ih =>
    rw [printAllNodes, List.length_cons, List.range_succ_eq_map, List.flatMap_cons,
      List.flatMap_map]
    have hx : (match (x :: xs)[0]? with
        | some n => if n.key = UINT_MAX then [] else n.bid :: n.next.map (fun c => c.bid)
        | none => ([] : List Bid)) = emitBucket x := by
      simp [emitBucket]
    rw [hx]
    congr 1
    rw [ih]
    refine congrArg (List.flatMap (List.range xs.length)) ?_
    funext i
    simp only [Function.comp, List.getElem?_cons_succ]

/-! ## Claims -/

/-- C1: for every sequence of `Insert` calls with pairwise-distinct
identifiers (and no intervening `Remove`) starting from a freshly constructed
table, `Search` on each inserted identifier returns exactly the record that
was inserted under it (the first match by exact text equality). -/
theorem C1_insert_distinct_search (size : Nat) (bs : List Bid)
    (hsize : 1 ≤ size) (hsize32 : size < 2 ^ 32)
    (hnd : (bs.map (fun b => b.bidId)).Nodup) :
    ∃ ht, insertAll (HashTable.create size) bs = some ht ∧
      ∀ b ∈ bs, ht.Search b.bidId = some b := by
  have hwf := WF_create size hsize32
  have hts : (HashTable.create size).tableSize ≠ 0 := by
    show size ≠ 0
    omega
  have hfresh : ∀ b ∈ bs, ∀ b' ∈ (HashTable.create size).PrintAll,
      b'.bidId ≠ b.bidId := by
    intro b hb b' hb'
    exfalso
    obtain ⟨i, n, hn, hbn⟩ := mem_printAllNodes.mp hb'
    rw [create_getElem hn, emitBucket_of_empty rfl] at hbn
    cases hbn
  obtain ⟨ht, hall, hwf', hts', hiff⟩ := insertAll_fresh hwf hts hnd hfresh
  refine ⟨ht, hall, ?_⟩
  intro b hb
  exact Search_of_mem hwf' ((hiff b).mpr (Or.inr hb))

/-- C1 witness: two colliding distinct identifiers in a size-3 table are both
retrieved exactly. -/
theorem C1_insert_distinct_search_witness :
    ∃ ht, insertAll (HashTable.create 3) [⟨"1", "a", "f", 2⟩, ⟨"4", "b", "g", 3⟩]
        = some ht ∧
      ∀ b ∈ [(⟨"1", "a", "f", 2⟩ : Bid), ⟨"4", "b", "g", 3⟩], ht.Search b.bidId = some b :=
  C1_insert_distinct_search 3 [⟨"1", "a", "f", 2⟩, ⟨"4", "b", "g", 3⟩]
    (by decide) (by decide) (by decide)

/-- C2: inserting a record whose identifier is already stored is a no-op:
the resulting table is literally the unchanged one (the stored record is not
overwritten and the observable contents are unchanged). -/
theorem C2_duplicate_insert_noop {ht : HashTable} {b' bid : Bid}
    (hre : Reachable ht) (hmem : b' ∈ ht.PrintAll) (hid : b'.bidId = bid.bidId) :
    ht.Insert bid = some ht := by
  have hwf := WF_reachable hre
  obtain ⟨k, node, hn, hb⟩ := mem_printAllNodes.mp hmem
  have hk0 := hwf.2.2.2.1 k node hn b' hb
  have hk : HashTable.hash ht.tableSize (atoi bid.bidId) = some k := by
    rw [← hid]
    exact hk0
  by_cases hkey : node.key = UINT_MAX
  · rw [emitBucket_of_empty hkey] at hb
    cases hb
  · rw [Insert_eq hk hn, if_neg hkey]
    by_cases hhead : node.bid.bidId = bid.bidId
    · rw [if_pos hhead]
    · rw [if_neg hhead]
      rw [emitBucket_of_occupied hkey] at hb
      rcases List.mem_cons.mp hb with h1 | h2
      · exact absurd (show node.bid.bidId = bid.bidId from h1 ▸ hid) hhead
      · rcases List.mem_map.mp h2 with ⟨c, hc, hcb⟩
        have hex : ∃ c ∈ node.next, c.bid.bidId = bid.bidId :=
          ⟨c, hc, by rw [hcb]; exact hid⟩
        rw [insertChain_of_mem hex]
        have hset : ht.nodes.set k { node with next := node.next } = ht.nodes :=
          set_self_of_getElem? ht.nodes k node hn
        rw [hset]

/-- C2 witness: re-inserting identifier "0" with different payload into a
reachable one-element table leaves the table unchanged. -/
theorem C2_duplicate_insert_noop_witness :
    (⟨[⟨bid0, 0, []⟩, ⟨{}, UINT_MAX, []⟩], 2⟩ : HashTable).Insert
        ⟨"0", "other title", "other fund", 99⟩
      = some ⟨[⟨bid0, 0, []⟩, ⟨{}, UINT_MAX, []⟩], 2⟩ :=
  @C2_duplicate_insert_noop ⟨[⟨bid0, 0, []⟩, ⟨{}, UINT_MAX, []⟩], 2⟩ bid0
    ⟨"0", "other title", "other fund", 99⟩
    (Reachable.insert (Reachable.create 2 (by decide))
      (by decide : (HashTable.create 2).Insert bid0
          = some ⟨[⟨bid0, 0, []⟩, ⟨{}, UINT_MAX, []⟩], 2⟩))
    (by decide) rfl

/-- C3: the claim "Remove(identifier) then Search(identifier) yields
not-found (the default/zero-valued record)" FAILS on the code.  `Remove` of a
matched head node only sets the sentinel key and drops the chain but leaves
the stored record in the slot, and `Search` never consults the sentinel, so
searching a removed head identifier returns the stale removed record, not the
default one.  This theorem evaluates the code at the failing input: size-5
table, insert `bidA` (id "1"), remove "1", search "1" returns `bidA`, which
differs from the default record the claim requires. -/
theorem C3_remove_then_search_returns_stale :
    ((HashTable.create 5).Insert bidA).bind
        (fun h1 => (h1.Remove "1").bind (fun h2 => h2.Search "1")) = some bidA ∧
      bidA ≠ ({} : Bid) := by
  constructor
  · decide
  · decide

/-- C4: `Remove` of a matched head node marks the slot EMPTY (sentinel key)
and drops the head's next-link without promoting the second node — the
resulting bucket is `⟨node.bid, UINT_MAX, []⟩` whatever the chain was; and
`Remove` of a matched non-head node splices it out by linking the previous
node to the matched node's successor, keeping all other nodes. -/
theorem C4_remove_head_marks_empty_and_splices {ht : HashTable} {id : String}
    {k : Nat} {node : Node}
    (hk : HashTable.hash ht.tableSize (atoi id) = some k)
    (hn : ht.nodes[k]? = some node) :
    (node.bid.bidId = id →
      ht.Remove id
        = some { ht with nodes := ht.nodes.set k ⟨node.bid, UINT_MAX, []⟩ }) ∧
    (node.bid.bidId ≠ id →
      ∀ l1 m l2, node.next = l1 ++ m :: l2 → (∀ c ∈ l1, c.bid.bidId ≠ id) →
        m.bid.bidId = id →
        ht.Remove id
          = some { ht with nodes := ht.nodes.set k { node with next := l1 ++ l2 } }) := by
  constructor
  · intro hmatch
    rw [Remove_eq hk hn, if_pos hmatch]
  · intro hmatch l1 m l2 hsplit hl1 hm
    rw [Remove_eq hk hn, if_neg hmatch, hsplit, removeChain_append hl1 hm]

/-- C4 witness: in a one-bucket table holding head `bid0` and chain `[bid5]`,
removing "0" empties the slot and loses the chain; removing "5" splices the
chain node out and keeps the head. -/
theorem C4_remove_head_marks_empty_and_splices_witness :
    (⟨[⟨bid0, 0, [⟨bid5, 0⟩]⟩], 1⟩ : HashTable).Remove "0"
        = some ⟨[⟨bid0, UINT_MAX, []⟩], 1⟩ ∧
    (⟨[⟨bid0, 0, [⟨bid5, 0⟩]⟩], 1⟩ : HashTable).Remove "5"
        = some ⟨[⟨bid0, 0, []⟩], 1⟩ := by
  constructor
  · exact (@C4_remove_head_marks_empty_and_splices
      ⟨[⟨bid0, 0, [⟨bid5, 0⟩]⟩], 1⟩ "0" 0 ⟨bid0, 0, [⟨bid5, 0⟩]⟩
      (by decide) (by decide)).1 (by decide)
  · exact (@C4_remove_head_marks_empty_and_splices
      ⟨[⟨bid0, 0, [⟨bid5, 0⟩]⟩], 1⟩ "5" 0 ⟨bid0, 0, [⟨bid5, 0⟩]⟩
      (by decide) (by decide)).2 (by decide) [] ⟨bid5, 0⟩ [] rfl (by simp) (by decide)

/-- C5: removing an identifier that is not currently stored leaves the table
literally unchanged (a normal negative result, not an error), for every
reachable table with at least one bucket. -/
theorem C5_remove_absent_noop {ht : HashTable} {id : String}
    (hre : Reachable ht) (hts : 1 ≤ ht.tableSize)
    (habsent : ∀ b ∈ ht.PrintAll, b.bidId ≠ id) :
    ht.Remove id = some ht := by
  have hwf := WF_reachable hre
  have hts' : ht.tableSize ≠ 0 := by omega
  have hk := @hash_isSome ht.tableSize (atoi id) hts'
  set k := ((atoi id).emod (2 ^ 32)).toNat % ht.tableSize with hkdef
  have hklt : k < ht.nodes.length := by
    rw [hwf.2.1]
    exact Nat.mod_lt _ (Nat.pos_of_ne_zero hts')
  have hn : ht.nodes[k]? = some (ht.nodes.get ⟨k, hklt⟩) :=
    List.getElem?_eq_some_iff.mpr ⟨hklt, rfl⟩
  set node := ht.nodes.get ⟨k, hklt⟩
  rw [Remove_eq hk hn]
  by_cases hmatch : node.bid.bidId = id
  · rw [if_pos hmatch]
    have hkey : node.key = UINT_MAX := by
      by_contra hkey
      refine habsent node.bid (mem_printAllNodes.mpr ⟨k, node, hn, ?_⟩) hmatch
      rw [emitBucket_of_occupied hkey]
      exact List.mem_cons_self _ _
    have hnext : node.next = [] := hwf.2.2.1 k node hn hkey
    have heq : ({ node with key := UINT_MAX, next := [] } : Node) = node := by
      rw [← hkey, ← hnext]
    rw [heq, set_self_of_getElem? ht.nodes k node hn]
  · rw [if_neg hmatch]
    have hchain : ∀ c ∈ node.next, c.bid.bidId ≠ id := by
      intro c hc
      by_cases hkey : node.key = UINT_MAX
      · rw [hwf.2.2.1 k node hn hkey] at hc
        cases hc
      · refine habsent c.bid (mem_printAllNodes.mpr ⟨k, node, hn, ?_⟩)
        rw [emitBucket_of_occupied hkey]
        exact List.mem_cons_of_mem _ (List.mem_map.mpr ⟨c, hc, rfl⟩)
    rw [removeChain_of_not_mem hchain]
    have hset : ht.nodes.set k { node with next := node.next } = ht.nodes :=
      set_self_of_getElem? ht.nodes k node hn
    rw [hset]

/-- C5 witness: removing the absent identifier "7" from a reachable
one-element size-5 table returns the table unchanged. -/
theorem C5_remove_absent_noop_witness :
    (⟨[⟨bid0, 0, []⟩, ⟨{}, UINT_MAX, []⟩, ⟨{}, UINT_MAX, []⟩, ⟨{}, UINT_MAX, []⟩,
        ⟨{}, UINT_MAX, []⟩], 5⟩ : HashTable).Remove "7"
      = some ⟨[⟨bid0, 0, []⟩, ⟨{}, UINT_MAX, []⟩, ⟨{}, UINT_MAX, []⟩,
        ⟨{}, UINT_MAX, []⟩, ⟨{}, UINT_MAX, []⟩], 5⟩ :=
  C5_remove_absent_noop
    (Reachable.insert (Reachable.create 5 (by decide))
      (by decide : (HashTable.create 5).Insert bid0
          = some ⟨[⟨bid0, 0, []⟩, ⟨{}, UINT_MAX, []⟩, ⟨{}, UINT_MAX, []⟩,
            ⟨{}, UINT_MAX, []⟩, ⟨{}, UINT_MAX, []⟩], 5⟩))
    (by decide) (by decide)

/-- C6 counterexample: on a table constructed with bucket count 0, the claim
"Insert/Search/Remove on any key fail safely (all failures are values, never
exceptions or undefined behaviour)" is false: `hash` computes `key % 0`
(undefined behaviour in C++) and `nodes.at(key)` on the empty vector would
throw; in the embedding this abnormal termination is the `none` result, which
all three operations produce for every key. -/
theorem C6_size0_operations_abnormal :
    (HashTable.create 0).Insert bid0 = none ∧
    (HashTable.create 0).Search "98223" = none ∧
    (HashTable.create 0).Remove "98223" = none := by
  refine ⟨by decide, by decide, by decide⟩

/-- C6 amended: on every reachable table with bucket count at least 1, no
core operation throws or aborts: `Insert`, `Search` and `Remove` always
return a normal (`some`) result (and `PrintAll`, embedded as a total
function, always produces its output); the safe-failure guarantee does not
extend to tables constructed with bucket count 0. -/
theorem C6_ops_total_of_pos {ht : HashTable}
    (hre : Reachable ht) (hts : 1 ≤ ht.tableSize) :
    (∀ b, ∃ ht', ht.Insert b = some ht') ∧
    (∀ s, ∃ r, ht.Search s = some r) ∧
    (∀ s, ∃ ht', ht.Remove s = some ht') :=
  ops_total (WF_reachable hre) (by omega)

/-- C6 witness: on a freshly constructed size-5 table, Insert, Search and
Remove all return normal results. -/
theorem C6_ops_total_of_pos_witness :
    (∃ ht', (HashTable.create 5).Insert bid0 = some ht') ∧
    (∃ r, (HashTable.create 5).Search "98223" = some r) ∧
    (∃ ht', (HashTable.create 5).Remove "98223" = some ht') :=
  ⟨(C6_ops_total_of_pos (Reachable.create 5 (by decide)) (by decide)).1 bid0,
   (C6_ops_total_of_pos (Reachable.create 5 (by decide)) (by decide)).2.1 "98223",
   (C6_ops_total_of_pos (Reachable.create 5 (by decide)) (by decide)).2.2 "98223"⟩

/-- C7: for every identifier and every table size at least 1, the bucket
index shared by `Insert`, `Search` and `Remove` is `atoi(identifier) mod
tableSize` (stated for identifiers whose parse is a representable
non-negative `int`, the hash's natural preimage); the parse yields 0 for
non-numeric text, so every non-numeric identifier maps to bucket 0; and all
three operations address the same bucket: `Insert` and `Remove` change no
bucket other than it, and `Search` depends on no bucket other than it. -/
theorem C7_bucket_index (ts : Nat) (s : String) (hts : 1 ≤ ts) :
    (0 ≤ atoi s → atoi s < 2 ^ 31 → bucketOf ts s = some ((atoi s).toNat % ts)) ∧
    ((∀ c ∈ s.data, ¬ c.isDigit) → bucketOf ts s = some 0) ∧
    (∀ (ht ht' : HashTable) (b : Bid) (k : Nat), ht.tableSize = ts → b.bidId = s →
      bucketOf ts s = some k →
      (ht.Insert b = some ht' → ∀ j, j ≠ k → ht'.nodes[j]? = ht.nodes[j]?) ∧
      (ht.Remove s = some ht' → ∀ j, j ≠ k → ht'.nodes[j]? = ht.nodes[j]?)) ∧
    (∀ (ht ht2 : HashTable) (k : Nat), ht.tableSize = ts → ht2.tableSize = ts →
      bucketOf ts s = some k → ht2.nodes[k]? = ht.nodes[k]? →
      ht2.Search s = ht.Search s) := by
  have hts0 : ts ≠ 0 := by omega
  refine ⟨?_, ?_, ?_, ?_⟩
  · intro h0 h1
    unfold bucketOf
    rw [@hash_isSome ts (atoi s) hts0]
    have he : (atoi s).emod (2 ^ 32) = atoi s :=
      Int.emod_eq_of_lt h0 (lt_trans h1 (by norm_num))
    rw [he]
  · intro hnodigit
    unfold bucketOf
    rw [atoi_no_digit hnodigit, @hash_isSome ts 0 hts0]
    norm_num
  · intro ht ht' b k hts1 hb hk
    have hkb : HashTable.hash ht.tableSize (atoi b.bidId) = some k := by
      rw [hts1, hb]
      exact hk
    have hks : HashTable.hash ht.tableSize (atoi s) = some k := by
      rw [hts1]
      exact hk
    exact ⟨fun h => Insert_frame hkb h, fun h => Remove_frame hks h⟩
  · intro ht ht2 k hts1 hts2 hk hnodes
    have hks : HashTable.hash ht.tableSize (atoi s) = some k := by
      rw [hts1]
      exact hk
    exact Search_depends hks (by rw [hts2, hts1]) hnodes

/-- C7 witness: in a size-5 table, identifier "7" addresses bucket
`7 mod 5 = 2`, and the non-numeric identifier "abc" addresses bucket 0. -/
theorem C7_bucket_index_witness :
    bucketOf 5 "7" = some 2 ∧ bucketOf 5 "abc" = some 0 :=
  ⟨(C7_bucket_index 5 "7" (by decide)).1 (by decide) (by decide),
   (C7_bucket_index 5 "abc" (by decide)).2.1 (by decide)⟩

/-- C8: the claimed scenario FAILS on the code.  On a size-5 table with
"0", "5", "10" in bucket 0 and "1" in bucket 1, `Search("5")` does return its
record; but after `Remove("0")` (a head removal that drops the whole chain),
`Search("5")` returns the default record instead of succeeding, and
`PrintAll` emits only the single record "1" instead of the 3 remaining
records the claim requires.  This theorem evaluates the code on the
scenario. -/
theorem C8_scenario_chain_lost :
    ((insertAll (HashTable.create 5) [bid0, bid5, bid10, bid1]).bind
        (fun h => h.Search "5") = some bid5) ∧
    (((insertAll (HashTable.create 5) [bid0, bid5, bid10, bid1]).bind
        (fun h => h.Remove "0")).bind (fun h => h.Search "5") = some ({} : Bid)) ∧
    (((insertAll (HashTable.create 5) [bid0, bid5, bid10, bid1]).bind
        (fun h => h.Remove "0")).map HashTable.PrintAll = some [bid1]) ∧
    bid5 ≠ ({} : Bid) := by
  refine ⟨by decide, by decide, by decide, by decide⟩

/-- C9: within a bucket, entries appear in insertion order: `Insert` of a
fresh identifier into an occupied bucket appends the new node at the end of
the chain; `Remove` of a non-head node splices it out preserving the
relative order of the remaining nodes; and `PrintAll` (a read-only function
of the table) emits records by ascending bucket index, each occupied
bucket's head first and then its chain in order, as described by
`printAllSpec`. -/
theorem C9_chain_order_and_printAll :
    (∀ (ht : HashTable) (b : Bid) (k : Nat) (node : Node),
      HashTable.hash ht.tableSize (atoi b.bidId) = some k →
      ht.nodes[k]? = some node → node.key ≠ UINT_MAX →
      node.bid.bidId ≠ b.bidId → (∀ c ∈ node.next, c.bid.bidId ≠ b.bidId) →
      ht.Insert b = some { ht with
        nodes := ht.nodes.set k { node with next := node.next ++ [⟨b, k⟩] } }) ∧
    (∀ (ht : HashTable) (s : String) (k : Nat) (node : Node)
        (l1 : List ChainNode) (m : ChainNode) (l2 : List ChainNode),
      HashTable.hash ht.tableSize (atoi s) = some k →
      ht.nodes[k]? = some node → node.bid.bidId ≠ s →
      node.next = l1 ++ m :: l2 → (∀ c ∈ l1, c.bid.bidId ≠ s) → m.bid.bidId = s →
      ht.Remove s = some { ht with
        nodes := ht.nodes.set k { node with next := l1 ++ l2 } }) ∧
    (∀ ht : HashTable, ht.PrintAll = printAllSpec ht) := by
  refine ⟨?_, ?_, ?_⟩
  · intro ht b k node hk hn hkey hhead hchain
    rw [Insert_eq hk hn, if_neg hkey, if_neg hhead, insertChain_of_not_mem hchain]
  · intro ht s k node l1 m l2 hk hn hhead hsplit hl1 hm
    rw [Remove_eq hk hn, if_neg hhead, hsplit, removeChain_append hl1 hm]
  · intro ht
    unfold HashTable.PrintAll printAllSpec
    exact printAllNodes_eq_range ht.nodes

/-- C9 witness: in a one-bucket table, inserting "10" appends it at the end
of the chain behind "0" and "5"; removing the chain node "5" keeps "0" then
"10" in order; and `PrintAll` matches its spec-side description. -/
theorem C9_chain_order_and_printAll_witness :
    (⟨[⟨bid0, 0, [⟨bid5, 0⟩]⟩], 1⟩ : HashTable).Insert bid10
        = some ⟨[⟨bid0, 0, [⟨bid5, 0⟩, ⟨bid10, 0⟩]⟩], 1⟩ ∧
    (⟨[⟨bid0, 0, [⟨bid5, 0⟩, ⟨bid10, 0⟩]⟩], 1⟩ : HashTable).Remove "5"
        = some ⟨[⟨bid0, 0, [⟨bid10, 0⟩]⟩], 1⟩ ∧
    (⟨[⟨bid0, 0, [⟨bid5, 0⟩]⟩], 1⟩ : HashTable).PrintAll
        = printAllSpec ⟨[⟨bid0, 0, [⟨bid5, 0⟩]⟩], 1⟩ := by
  refine ⟨?_, ?_, ?_⟩
  · exact (C9_chain_order_and_printAll).1 ⟨[⟨bid0, 0, [⟨bid5, 0⟩]⟩], 1⟩ bid10 0
      ⟨bid0, 0, [⟨bid5, 0⟩]⟩ (by decide) (by decide) (by decide) (by decide) (by decide)
  · exact (C9_chain_order_and_printAll).2.1 ⟨[⟨bid0, 0, [⟨bid5, 0⟩, ⟨bid10, 0⟩]⟩], 1⟩
      "5" 0 ⟨bid0, 0, [⟨bid5, 0⟩, ⟨bid10, 0⟩]⟩ [] ⟨bid5, 0⟩ [⟨bid10, 0⟩]
      (by decide) (by decide) (by decide) rfl (by simp) (by decide)
  · exact (C9_chain_order_and_printAll).2.2 ⟨[⟨bid0, 0, [⟨bid5, 0⟩]⟩], 1⟩

/-- C10: in every table state reachable from construction by `Insert` and
`Remove`, a bucket head slot whose key equals the `UINT_MAX` sentinel has no
overflow nodes chained behind it. -/
theorem C10_empty_head_has_no_chain {ht : HashTable} (hre : Reachable ht) :
    ∀ n ∈ ht.nodes, n.key = UINT_MAX → n.next = [] := by
  have hwf := WF_reachable hre
  intro n hn hkey
  obtain ⟨i, hi⟩ := List.mem_iff_getElem?.mp hn
  exact hwf.2.2.1 i n hi hkey

/-- C10 witness: in the state reached by creating a size-1 table, inserting
"0" and removing it again, the sentinel-marked head node (which still holds
the stale bid) has no chain behind it. -/
theorem C10_empty_head_has_no_chain_witness :
    (⟨bid0, UINT_MAX, []⟩ : Node).next = [] :=
  C10_empty_head_has_no_chain
    (Reachable.remove
      (Reachable.insert (Reachable.create 1 (by decide))
        (by decide : (HashTable.create 1).Insert bid0 = some ⟨[⟨bid0, 0, []⟩], 1⟩))
      (by decide : (⟨[⟨bid0, 0, []⟩], 1⟩ : HashTable).Remove "0"
          = some ⟨[⟨bid0, UINT_MAX, []⟩], 1⟩))
    ⟨bid0, UINT_MAX, []⟩ (by decide) rfl

end HashTableCpp
